import Mathlib

/-!
Shallow embedding of `matchms/filtering/repair_adduct/interpret_unknown_adduct.py`.

Python strings are `List Char`; Python `None` is `Option.none`; a raised
exception is `PyResult.exn`; Python floats are modelled as `ℚ`.  Each
`re.findall` call of the source is embedded as a recursive left-to-right scan
implementing the backtracking semantics of its fixed pattern: at every
position a match is attempted; on success the matched span is consumed and
the captured group recorded, otherwise the scan advances one character.
-/

/-- Python exceptions that the embedded code can raise. -/
inductive PyErr where
  | indexError
  | assertionError
  | zeroDivisionError
deriving DecidableEq

/-- Outcome of running a piece of Python code: a value or a raised exception. -/
inductive PyResult (α : Type) where
  | ok (a : α)
  | exn (e : PyErr)
deriving DecidableEq

/-- The character class `[+-]`. -/
def isSign (c : Char) : Bool := c = '+' || c = '-'

/-- The character class `[0-9a-zA-Z]` (ASCII ranges, as written in the
pattern). -/
def isAlnumAscii (c : Char) : Bool := c.isDigit || c.isAlpha

/-- Index of the last occurrence of `c` in `l`, if any. -/
def lastIdxOf (c : Char) : List Char → Option Nat
  | [] => none
  | a :: t =>
    match lastIdxOf c t with
    | some j => some (j + 1)
    | none => if a = c then some 0 else none

/-- `re.findall(r"\[(.*)\]", s)` (line 41 of the source): at each `[`, the
greedy `.*` (which does not cross a newline) extends to the last `]`
reachable without a newline; the scan resumes after that `]`.  Returns the
list of captured groups. -/
def findallBr : List Char → List (List Char)
  | [] => []
  | c :: rest =>
    if c = '[' then
      match lastIdxOf ']' (rest.takeWhile (fun x => x ≠ '\n')) with
      | some j => (rest.takeWhile (fun x => x ≠ '\n')).take j :: findallBr (rest.drop (j + 1))
      | none => findallBr rest
    else findallBr rest
termination_by l => l.length
decreasing_by
  all_goals simp_all [List.length_drop]
  all_goals omega

/-- `re.findall(r"\]([0-9]?[+-])", s)` (line 106 of the source): captured
groups, with the greedy optional digit tried first and the scan advancing one
character after a failed attempt. -/
def chargeScan : List Char → List (List Char)
  | [] => []
  | c :: rest =>
    if c = ']' then
      match rest with
      | [] => []
      | [d] => if isSign d then [[d]] else chargeScan [d]
      | d :: s :: r =>
        if d.isDigit && isSign s then [d, s] :: chargeScan r
        else if isSign d then [d] :: chargeScan (s :: r)
        else chargeScan (d :: s :: r)
    else chargeScan rest
termination_by l => l.length
decreasing_by
  all_goals simp only [List.length_cons, List.length_nil]
  all_goals omega

/-- `re.findall(r'([+-][0-9a-zA-Z]+)', s)` (line 56 of the source): a sign
followed by a maximal non-empty alphanumeric run. -/
def ionScan : List Char → List (List Char)
  | [] => []
  | c :: rest =>
    if isSign c then
      if (rest.takeWhile isAlnumAscii) = [] then ionScan rest
      else (c :: rest.takeWhile isAlnumAscii) :: ionScan (rest.drop (rest.takeWhile isAlnumAscii).length)
    else ionScan rest
termination_by l => l.length
decreasing_by
  all_goals simp_all [List.length_drop]
  all_goals omega

/-- The suffix alternation `(?:$|[+-])` after the parent-mass group: end of
string, or a consumed sign character.  Carries the captured group through. -/
def pmCheckEnd (g : List Char) : List Char → Option (List Char × List Char)
  | [] => some (g, [])
  | h :: r2 => if isSign h then some (g, r2) else none

/-- The group-and-suffix part `([0-9]?M)(?:$|[+-])` of the parent-mass
pattern, attempted at the current position (the greedy `[0-9]?` takes a digit
exactly when one is present, since a digit cannot also be `M`). -/
def pmGroup : List Char → Option (List Char × List Char)
  | [] => none
  | d :: rest =>
    if d.isDigit then
      match rest with
      | 'M' :: r => pmCheckEnd [d, 'M'] r
      | _ => none
    else if d = 'M' then pmCheckEnd ['M'] rest
    else none

/-- One attempt of `(?:^|[+-])([0-9]?M)(?:$|[+-])` at the current position:
the `^` alternative first (only at the very start of the string), then the
`[+-]` alternative.  Returns the captured group and the rest of the string
after the whole match. -/
def pmTry (atStart : Bool) (l : List Char) : Option (List Char × List Char) :=
  match (if atStart then pmGroup l else none) with
  | some r => some r
  | none =>
    match l with
    | s :: l2 => if isSign s then pmGroup l2 else none
    | [] => none

theorem pmCheckEnd_length {g out : List Char} {r rem : List Char}
    (h : pmCheckEnd g r = some (out, rem)) : rem.length ≤ r.length := by
  cases r with
  | nil =>
    simp only [pmCheckEnd] at h
    cases h
    simp
  | cons a t =>
    simp only [pmCheckEnd] at h
    split at h
    · cases h
      simp
    · cases h

theorem pmGroup_length {m out rem : List Char}
    (h : pmGroup m = some (out, rem)) : rem.length < m.length := by
  cases m with
  | nil => simp [pmGroup] at h
  | cons d rest =>
    simp only [pmGroup] at h
    split at h
    · split at h
      · have := pmCheckEnd_length h
        simp_all
        omega
      · cases h
    · split at h
      · have := pmCheckEnd_length h
        simp
        omega
      · cases h

theorem pmTry_length {b : Bool} {l g rem : List Char}
    (h : pmTry b l = some (g, rem)) : rem.length < l.length := by
  unfold pmTry at h
  split at h
  · rename_i r heq
    split at heq
    · cases h
      exact pmGroup_length heq
    · cases heq
  · split at h
    · rename_i s l2
      split at h
      · have := pmGroup_length h
        simp
        omega
      · cases h
    · cases h

/-- `re.findall(r'(?:^|[+-])([0-9]?M)(?:$|[+-])', s)` (line 47 of the
source): scan left to right; a matched span (including a consumed trailing
sign) is skipped, otherwise the scan advances one character. -/
def pmScan (atStart : Bool) (l : List Char) : List (List Char) :=
  match h : pmTry atStart l with
  | some (g, rem) => g :: pmScan false rem
  | none =>
    match l with
    | [] => []
    | _ :: t => pmScan false t
termination_by l.length
decreasing_by
  · exact pmTry_length h
  · simp

/-- Python `int(...)` on a string of decimal digits (the only strings it is
applied to in the source are `"1"` or a captured `[0-9]+` group). -/
def natOfDigits (s : List Char) : Nat :=
  s.foldl (fun a c => 10 * a + (c.toNat - 48)) 0

/-- `split_ion(ion)` (lines 61-71 of the source).  `ion[0]` on an empty
string raises `IndexError`; the `assert` raises `AssertionError` when the
first character is not a sign.  `re.match(r'^([0-9]+)(.*)', ion)` succeeds
iff the remainder starts with a digit; group 1 is the maximal digit run and
group 2 the rest of the line (`.` does not cross a newline).  With no leading
digit the count is the integer `1`, stored here as the digit string `"1"`
(every later use is `str(number)` or `int(number)`, on which the two agree). -/
def split_ion : List Char → PyResult (Char × List Char × List Char)
  | [] => .exn .indexError
  | sign :: rest =>
    if isSign sign then
      match rest with
      | c :: _ =>
        if c.isDigit then
          .ok (sign, rest.takeWhile Char.isDigit,
               (rest.dropWhile Char.isDigit).takeWhile (fun x => x ≠ '\n'))
        else .ok (sign, ['1'], rest)
      | [] => .ok (sign, ['1'], [])
    else .exn .assertionError

/-- The fixed `abbrev_to_formula` table of `replace_abbreviations`
(lines 75-77 of the source). -/
def abbrev_to_formula (f : List Char) : Option (List Char) :=
  if f = "ACN".data then some "CH3CN".data
  else if f = "DMSO".data then some "C2H6OS".data
  else if f = "FA".data then some "CH2O2".data
  else if f = "HAc".data then some "CH3COOH".data
  else if f = "Hac".data then some "CH3COOH".data
  else if f = "TFA".data then some "C2HF3O2".data
  else if f = "IsoProp".data then some "CH3CHOHCH3".data
  else if f = "MeOH".data then some "CH3OH".data
  else none

/-- `replace_abbreviations(ions_split)` (lines 74-84 of the source): split
each token, substitute the identifier through the abbreviation table when
present, and rebuild `sign + str(number) + ion`. -/
def replace_abbreviations : List (List Char) → PyResult (List (List Char))
  | [] => .ok []
  | ion :: rest =>
    match split_ion ion with
    | .exn e => .exn e
    | .ok (sign, number, f) =>
      match replace_abbreviations rest with
      | .ok out => .ok ((sign :: (number ++ (abbrev_to_formula f).getD f)) :: out)
      | .exn e => .exn e

/-- The loop of `get_mass_of_ion` (lines 87-102 of the source) with its
running accumulator.  `lookup` models the collaborator
`Formula(ion).isotope.mass`; `none` models a raised `FormulaError`, which the
source catches, logs and converts to a returned `None`. -/
def get_mass_of_ion_from (lookup : List Char → Option ℚ) (acc : ℚ) :
    List (List Char) → PyResult (Option ℚ)
  | [] => .ok (some acc)
  | ion :: rest =>
    match split_ion ion with
    | .exn e => .exn e
    | .ok (sign, number, f) =>
      match lookup f with
      | none => .ok none
      | some m =>
        get_mass_of_ion_from lookup
          (acc + ((if sign = '-' then -(natOfDigits number : ℤ)
                   else (natOfDigits number : ℤ)) : ℚ) * m) rest

/-- `get_mass_of_ion(ions)` (lines 87-102 of the source). -/
def get_mass_of_ion (lookup : List Char → Option ℚ) (ions : List (List Char)) :
    PyResult (Option ℚ) :=
  get_mass_of_ion_from lookup 0 ions

/-- Sign character mapped to its integer sign (the charge scan only captures
`+` or `-` in sign position). -/
def signVal (c : Char) : ℤ := if c = '-' then -1 else 1

/-- `get_charge_of_adduct(adduct)` (lines 105-120 of the source): exactly one
match of `\]([0-9]?[+-])` is required, otherwise `None`;
`int(charge_sign + charge_size)` with the magnitude defaulting to `"1"` when
the match is a bare sign.  (A captured group always has length 1 or 2, so the
final `else` of the source is unreachable.) -/
def get_charge_of_adduct (adduct : List Char) : Option ℤ :=
  match chargeScan adduct with
  | [m] =>
    match m with
    | [s] => some (signVal s * 1)
    | [d, s] => some (signVal s * ((d.toNat - 48 : ℕ) : ℤ))
    | _ => none
  | _ => none

/-- `int(parent_mass[0])` with the `parent_mass == "M" → 1` default
(lines 51-54 of the source).  A parent-mass match is `"M"` or one digit
followed by `"M"`, so the head of a non-`"M"` match is its digit. -/
def parent_mass_value (pm : List Char) : ℕ :=
  if pm = ['M'] then 1
  else
    match pm with
    | d :: _ => d.toNat - 48
    | [] => 0

/-- Lines 47-58 of the source: the tail of `get_ions_from_adduct` running on
the working substring (the bracket content, or the whole string when there is
no `[`).  Zero parent-mass matches means the source logs its warning and then
raises `IndexError` at `parent_mass[0]`; with several matches only the first
is used. -/
def parse_inner_adduct (a : List Char) :
    PyResult (Option ℕ × Option (List (List Char))) :=
  match pmScan true a with
  | [] => .exn .indexError
  | pm :: _ =>
    match replace_abbreviations (ionScan a) with
    | .ok ions => .ok (some (parent_mass_value pm), some ions)
    | .exn e => .exn e

/-- `get_ions_from_adduct(adduct)` (lines 33-58 of the source). -/
def get_ions_from_adduct (adduct : List Char) :
    PyResult (Option ℕ × Option (List (List Char))) :=
  if '[' ∈ adduct then
    match findallBr adduct with
    | [inner] => parse_inner_adduct inner
    | _ => .ok (none, none)
  else parse_inner_adduct adduct

/-- Modelled from the spec: `matchms.constants.ELECTRTON_MASS` (the spec's
`electronMass`) is imported by the source but `matchms/constants.py` is not
among the sources; the claims do not depend on its numeric value, taken here
as the electron rest mass in dalton. -/
def ELECTRTON_MASS : ℚ := 54858 / 100000000

/-- The body of `get_multiplier_and_mass_from_adduct` (lines 13-30 of the
source) after its sub-calls.  The charge is computed first and `None` makes
the call return `(None, None)` before the ions are ever parsed; then a failed
ion parse returns `(None, None)`, a failed mass resolution returns
`(None, None)`, and otherwise `1/abs(charge)` raises `ZeroDivisionError` when
the charge is `0`. -/
def assemble (lookup : List Char → Option ℚ) (charge : Option ℤ)
    (pi : PyResult (Option ℕ × Option (List (List Char)))) :
    PyResult (Option ℚ × Option ℚ) :=
  match charge with
  | none => .ok (none, none)
  | some c =>
    match pi with
    | .exn e => .exn e
    | .ok (pmOpt, ionsOpt) =>
      match pmOpt, ionsOpt with
      | some parent, some ions =>
        match get_mass_of_ion lookup ions with
        | .exn e => .exn e
        | .ok none => .ok (none, none)
        | .ok (some massOfIons) =>
          if c = 0 then .exn .zeroDivisionError
          else .ok (some (1 / (c.natAbs : ℚ) * (parent : ℚ)),
                    some ((massOfIons + ELECTRTON_MASS * (-(c : ℚ))) / (c.natAbs : ℚ)))
      | _, _ => .ok (none, none)

/-- `get_multiplier_and_mass_from_adduct(adduct)` (lines 13-30 of the
source), with the formula-mass collaborator passed explicitly as `lookup`. -/
def get_multiplier_and_mass_from_adduct (lookup : List Char → Option ℚ)
    (adduct : List Char) : PyResult (Option ℚ × Option ℚ) :=
  assemble lookup (get_charge_of_adduct adduct) (get_ions_from_adduct adduct)

/-- A monoisotopic mass for hydrogen, for the concrete collaborator below. -/
def massH : ℚ := 100783 / 100000

/-- A concrete formula-mass collaborator recognizing only `"H"`. -/
def lookupH (f : List Char) : Option ℚ :=
  if f = "H".data then some massH else none

/-- A formula-mass collaborator recognizing nothing. -/
def lookupNone (f : List Char) : Option ℚ := none

/-- Every group captured by the charge scan is a bare sign or a digit
followed by a sign. -/
theorem chargeScan_shape (l : List Char) :
    ∀ m ∈ chargeScan l, (∃ s, isSign s = true ∧ m = [s]) ∨
      (∃ d s, d.isDigit = true ∧ isSign s = true ∧ m = [d, s]) := by
  induction l using chargeScan.induct with
  | case1 => simp [chargeScan]
  | case2 => simp [chargeScan]
  | case3 d hd =>
    intro m hm
    rw [chargeScan] at hm
    simp [hd] at hm
    exact Or.inl ⟨d, hd, hm⟩
  | case4 d hd ih =>
    intro m hm
    rw [chargeScan] at hm
    simp only [reduceIte, hd] at hm
    exact ih m hm
  | case5 d s r h ih =>
    intro m hm
    rw [chargeScan] at hm
    simp [h] at hm
    rcases hm with rfl | hm
    · rcases Bool.and_eq_true .. |>.mp h with ⟨h1, h2⟩
      exact Or.inr ⟨d, s, h1, h2, rfl⟩
    · exact ih m hm
  | case6 d s r h1 h2 ih =>
    intro m hm
    rw [chargeScan] at hm
    simp [h1, h2] at hm
    rcases hm with rfl | hm
    · exact Or.inl ⟨d, h2, rfl⟩
    · exact ih m hm
  | case7 d s r h1 h2 ih =>
    intro m hm
    rw [chargeScan] at hm
    simp [h1, h2] at hm
    exact ih m hm
  | case8 c t hc ih =>
    intro m hm
    rw [chargeScan.eq_def] at hm
    simp [hc] at hm
    exact ih m hm

theorem pmCheckEnd_group {g r out rem : List Char}
    (h : pmCheckEnd g r = some (out, rem)) : out = g := by
  cases r with
  | nil =>
    simp only [pmCheckEnd, Option.some.injEq, Prod.mk.injEq] at h
    exact h.1.symm
  | cons a t =>
    simp only [pmCheckEnd] at h
    split at h
    · cases h
      rfl
    · cases h

theorem pmGroup_shape {m out rem : List Char}
    (h : pmGroup m = some (out, rem)) :
    out = ['M'] ∨ ∃ d, d.isDigit = true ∧ out = [d, 'M'] := by
  cases m with
  | nil => simp [pmGroup] at h
  | cons d rest =>
    simp only [pmGroup] at h
    split at h
    · rename_i hd
      split at h
      · exact Or.inr ⟨d, hd, pmCheckEnd_group h ▸ rfl⟩
      · cases h
    · split at h
      · exact Or.inl (pmCheckEnd_group h)
      · cases h

theorem pmTry_shape {b : Bool} {l g rem : List Char}
    (h : pmTry b l = some (g, rem)) :
    g = ['M'] ∨ ∃ d, d.isDigit = true ∧ g = [d, 'M'] := by
  unfold pmTry at h
  split at h
  · rename_i r heq
    split at heq
    · cases h
      exact pmGroup_shape heq
    · cases heq
  · split at h
    · split at h
      · exact pmGroup_shape h
      · cases h
    · cases h

theorem pmScan_shape (b : Bool) (l : List Char) :
    ∀ g ∈ pmScan b l, g = ['M'] ∨ ∃ d, d.isDigit = true ∧ g = [d, 'M'] := by
  induction b, l using pmScan.induct
  all_goals intro g hg
  all_goals rw [pmScan] at hg
  all_goals split at hg
  · rename_i h1 ih g3 rem3 heq3
    rw [h1] at heq3
    simp only [Option.some.injEq, Prod.mk.injEq] at heq3
    obtain ⟨h4, h5⟩ := heq3
    subst h4
    subst h5
    simp only [List.mem_cons] at hg
    rcases hg with rfl | hg
    · exact pmTry_shape h1
    · exact ih g hg
  · rename_i h1 ih heq3
    rw [h1] at heq3
    cases heq3
  · rename_i h1 g3 rem3 heq3
    rw [h1] at heq3
    cases heq3
  · simp at hg
  · rename_i h1 ih g3 rem3 heq3
    rw [h1] at heq3
    cases heq3
  · rename_i ih heq3
    exact ih g hg

theorem split_ion_sign_nil {s : Char} (hs : isSign s = true) :
    split_ion [s] = .ok (s, ['1'], []) := by
  simp [split_ion, hs]

theorem split_ion_digit {s c : Char} {r : List Char} (hs : isSign s = true)
    (hc : c.isDigit = true) :
    split_ion (s :: c :: r) = .ok (s, (c :: r).takeWhile Char.isDigit,
      ((c :: r).dropWhile Char.isDigit).takeWhile (fun x => x ≠ '\n')) := by
  simp [split_ion, hs, hc]

theorem split_ion_nodigit {s c : Char} {r : List Char} (hs : isSign s = true)
    (hc : ¬c.isDigit = true) :
    split_ion (s :: c :: r) = .ok (s, ['1'], c :: r) := by
  simp [split_ion, hs, hc]

theorem split_ion_not_sign {s : Char} {r : List Char} (hs : ¬isSign s = true) :
    split_ion (s :: r) = .exn .assertionError := by
  simp [split_ion, hs]

theorem split_ion_sign {t : List Char} {sg : Char} {n f : List Char}
    (h : split_ion t = .ok (sg, n, f)) : isSign sg = true ∧ ∃ r, t = sg :: r := by
  cases t with
  | nil => simp [split_ion] at h
  | cons s r =>
    by_cases hs : isSign s
    · cases r with
      | nil =>
        rw [split_ion_sign_nil hs] at h
        cases h
        exact ⟨hs, [], rfl⟩
      | cons c r2 =>
        by_cases hc : c.isDigit
        · rw [split_ion_digit hs hc] at h
          cases h
          exact ⟨hs, c :: r2, rfl⟩
        · rw [split_ion_nodigit hs hc] at h
          cases h
          exact ⟨hs, c :: r2, rfl⟩
    · rw [split_ion_not_sign hs] at h
      cases h

theorem ionScan_shape (l : List Char) :
    ∀ t ∈ ionScan l, ∃ s r, t = s :: r ∧ isSign s = true ∧ r ≠ [] ∧
      ∀ c ∈ r, isAlnumAscii c = true := by
  induction l using ionScan.induct with
  | case1 => simp [ionScan]
  | case2 c rest hc hrun ih =>
    intro t ht
    rw [ionScan] at ht
    simp only [hc, if_pos, hrun, reduceIte] at ht
    exact ih t ht
  | case3 c rest hc hrun ih =>
    intro t ht
    rw [ionScan] at ht
    simp only [hc, if_pos, hrun, reduceIte, List.mem_cons] at ht
    rcases ht with rfl | ht
    · exact ⟨c, rest.takeWhile isAlnumAscii, rfl, hc, hrun,
        fun x hx => List.mem_takeWhile_imp hx⟩
    · exact ih t ht
  | case4 c rest hc ih =>
    intro t ht
    rw [ionScan] at ht
    simp only [hc, reduceIte] at ht
    exact ih t ht

/-- A token whose first character is a sign: exactly the tokens on which
`split_ion` does not raise. -/
def StartsSign (t : List Char) : Prop := ∃ s r, t = s :: r ∧ isSign s = true

theorem split_ion_ok_of_startsSign {t : List Char} (h : StartsSign t) :
    ∃ out, split_ion t = .ok out := by
  obtain ⟨s, r, rfl, hs⟩ := h
  cases r with
  | nil => exact ⟨_, split_ion_sign_nil hs⟩
  | cons c r2 =>
    by_cases hc : c.isDigit
    · exact ⟨_, split_ion_digit hs hc⟩
    · exact ⟨_, split_ion_nodigit hs hc⟩

theorem replace_abbreviations_ok {l : List (List Char)}
    (h : ∀ t ∈ l, StartsSign t) : ∃ out, replace_abbreviations l = .ok out := by
  induction l with
  | nil => exact ⟨[], rfl⟩
  | cons ion rest ih =>
    obtain ⟨o1, ho1⟩ := split_ion_ok_of_startsSign (h ion (by simp))
    obtain ⟨orest, horest⟩ := ih (fun t ht => h t (by simp [ht]))
    rw [replace_abbreviations, ho1]
    obtain ⟨sg, n, f⟩ := o1
    rw [horest]
    exact ⟨_, rfl⟩

theorem replace_abbreviations_startsSign {l out : List (List Char)}
    (h : replace_abbreviations l = .ok out) : ∀ u ∈ out, StartsSign u := by
  induction l generalizing out with
  | nil =>
    cases h
    simp
  | cons ion rest ih =>
    rw [replace_abbreviations] at h
    split at h
    · cases h
    · rename_i sg n f hsplit
      split at h
      · rename_i orest horest
        cases h
        intro u hu
        rcases List.mem_cons.mp hu with rfl | hu
        · exact ⟨sg, _, rfl, (split_ion_sign hsplit).1⟩
        · exact ih horest u hu
      · cases h

theorem get_mass_of_ion_from_none {lookup : List Char → Option ℚ}
    {ions : List (List Char)} {t0 : List Char} {sg : Char} {n f : List Char}
    (hwf : ∀ t ∈ ions, StartsSign t) (ht0 : t0 ∈ ions)
    (hsplit : split_ion t0 = .ok (sg, n, f)) (hlk : lookup f = none) :
    ∀ acc, get_mass_of_ion_from lookup acc ions = .ok none := by
  induction ions with
  | nil => cases ht0
  | cons ion rest ih =>
    intro acc
    rcases List.mem_cons.mp ht0 with rfl | ht0
    · rw [get_mass_of_ion_from, hsplit]
      simp [hlk]
    · obtain ⟨⟨sg2, n2, f2⟩, hs2⟩ :=
        split_ion_ok_of_startsSign (hwf ion (by simp))
      rw [get_mass_of_ion_from, hs2]
      dsimp only
      cases hlk2 : lookup f2 with
      | none => rfl
      | some m => exact ih (fun t ht => hwf t (by simp [ht])) ht0 _

theorem digit_bounds {d : Char} (hd : d.isDigit = true) :
    48 ≤ d.toNat ∧ d.toNat ≤ 57 := by
  simp [Char.isDigit] at hd
  obtain ⟨h1, h2⟩ := hd
  constructor
  · exact h1
  · exact h2

theorem parent_mass_value_le {pm : List Char}
    (h : pm = ['M'] ∨ ∃ d, d.isDigit = true ∧ pm = [d, 'M']) :
    parent_mass_value pm ≤ 9 := by
  rcases h with rfl | ⟨d, hd, rfl⟩
  · simp [parent_mass_value]
  · obtain ⟨h1, h2⟩ := digit_bounds hd
    unfold parent_mass_value
    split
    · omega
    · dsimp only
      omega

theorem parse_inner_exn {a : List Char} (h : pmScan true a = []) :
    parse_inner_adduct a = .exn .indexError := by
  unfold parse_inner_adduct
  rw [h]

theorem parse_inner_eq {a pm : List Char} {pms : List (List Char)}
    (hpm : pmScan true a = pm :: pms) :
    ∃ ions, parse_inner_adduct a = .ok (some (parent_mass_value pm), some ions) ∧
      replace_abbreviations (ionScan a) = .ok ions := by
  obtain ⟨out, hout⟩ := replace_abbreviations_ok (l := ionScan a)
    (fun t ht => by
      obtain ⟨s, r, he, hs, _, _⟩ := ionScan_shape a t ht
      exact ⟨s, r, he, hs⟩)
  refine ⟨out, ?_, hout⟩
  unfold parse_inner_adduct
  rw [hpm]
  dsimp only
  rw [hout]

theorem parse_inner_inv {a : List Char} {p : ℕ} {ions : List (List Char)}
    (h : parse_inner_adduct a = .ok (some p, some ions)) :
    ∃ pm pms, pmScan true a = pm :: pms ∧ p = parent_mass_value pm ∧
      replace_abbreviations (ionScan a) = .ok ions := by
  unfold parse_inner_adduct at h
  split at h
  · cases h
  · rename_i pm pms hpm
    split at h
    · rename_i ions0 hrep
      simp only [PyResult.ok.injEq, Prod.mk.injEq, Option.some.injEq] at h
      obtain ⟨hp, hi⟩ := h
      subst hi
      exact ⟨pm, pms, hpm, hp.symm, hrep⟩
    · cases h

theorem get_ions_inv {a : List Char} {p : ℕ} {ions : List (List Char)}
    (h : get_ions_from_adduct a = .ok (some p, some ions)) :
    ∃ w, parse_inner_adduct w = .ok (some p, some ions) := by
  unfold get_ions_from_adduct at h
  split at h
  · split at h
    · rename_i w hw
      exact ⟨w, h⟩
    · cases h
  · exact ⟨a, h⟩

theorem get_ions_tokens {a : List Char} {p : ℕ} {ions : List (List Char)}
    (h : get_ions_from_adduct a = .ok (some p, some ions)) :
    ∀ u ∈ ions, StartsSign u := by
  obtain ⟨w, hw⟩ := get_ions_inv h
  obtain ⟨pm, pms, hpm, hp, hrep⟩ := parse_inner_inv hw
  exact replace_abbreviations_startsSign hrep

/-- C1: the claim states that `get_multiplier_and_mass_from_adduct` never
raises and returns either two non-null floats or exactly `(None, None)`.
The code, however, raises: on `"[M]0+"` the charge regex accepts the digit
`0`, the parsed charge is `0`, and `1/abs(charge)` raises
`ZeroDivisionError`; on `"[H]+"` the parent-mass token matches zero times
and `parent_mass[0]` raises `IndexError`.  This theorem evaluates the
embedded code at both failing inputs. -/
theorem C1_code_raises_on_failing_inputs :
    get_multiplier_and_mass_from_adduct lookupNone "[M]0+".data
        = .exn .zeroDivisionError ∧
    get_multiplier_and_mass_from_adduct lookupNone "[H]+".data
        = .exn .indexError := by
  constructor
  · simp [get_multiplier_and_mass_from_adduct, assemble, get_charge_of_adduct, chargeScan,
          get_ions_from_adduct, parse_inner_adduct, findallBr, lastIdxOf, pmScan, pmTry,
          pmGroup, pmCheckEnd, ionScan, replace_abbreviations, split_ion, abbrev_to_formula,
          get_mass_of_ion, get_mass_of_ion_from, lookupNone, isSign, isAlnumAscii, signVal,
          parent_mass_value, natOfDigits]
  · simp [get_multiplier_and_mass_from_adduct, assemble, get_charge_of_adduct, chargeScan,
          get_ions_from_adduct, parse_inner_adduct, findallBr, lastIdxOf, pmScan, pmTry,
          pmGroup, pmCheckEnd, ionScan, replace_abbreviations, split_ion, abbrev_to_formula,
          get_mass_of_ion, get_mass_of_ion_from, lookupNone, isSign, isAlnumAscii, signVal,
          parent_mass_value, natOfDigits]

/-- C5: the claim states that a successfully extracted charge is always a
nonzero integer, so the divisions by `abs(charge)` cannot divide by zero.
The charge regex `\]([0-9]?[+-])` also accepts the digit `0`: on `"[M]0+"`
charge extraction succeeds with charge `0` and the entry point then raises
`ZeroDivisionError` at `1/abs(charge)`. -/
theorem C5_zero_charge_division :
    get_charge_of_adduct "[M]0+".data = some 0 ∧
    get_multiplier_and_mass_from_adduct lookupH "[M]0+".data
        = .exn .zeroDivisionError := by
  constructor
  · simp [get_charge_of_adduct, chargeScan, isSign, signVal]
  · simp [get_multiplier_and_mass_from_adduct, assemble, get_charge_of_adduct, chargeScan,
          get_ions_from_adduct, parse_inner_adduct, findallBr, lastIdxOf, pmScan, pmTry,
          pmGroup, pmCheckEnd, ionScan, replace_abbreviations, split_ion, abbrev_to_formula,
          get_mass_of_ion, get_mass_of_ion_from, lookupH, isSign, isAlnumAscii, signVal,
          parent_mass_value, natOfDigits]

/-- C3 counterexample: the claim states that a parent-mass match count other
than one — including zero — still produces a non-exceptional result using
the first match.  On `"[H]+"` the working substring `"H"` has zero
parent-mass matches and the code raises `IndexError` (right after logging
the warning), so no non-exceptional result is produced. -/
theorem C3_zero_matches_raise_counterexample :
    pmScan true "H".data = [] ∧
    get_ions_from_adduct "[H]+".data = .exn .indexError ∧
    get_multiplier_and_mass_from_adduct lookupH "[H]+".data = .exn .indexError := by
  refine ⟨?_, ?_, ?_⟩
  · simp [pmScan, pmTry, pmGroup, pmCheckEnd, isSign]
  · simp [get_ions_from_adduct, parse_inner_adduct, findallBr, lastIdxOf, pmScan, pmTry,
          pmGroup, pmCheckEnd, ionScan, replace_abbreviations, split_ion, abbrev_to_formula,
          isSign, isAlnumAscii, parent_mass_value, natOfDigits]
  · simp [get_multiplier_and_mass_from_adduct, assemble, get_charge_of_adduct, chargeScan,
          get_ions_from_adduct, parse_inner_adduct, findallBr, lastIdxOf, pmScan, pmTry,
          pmGroup, pmCheckEnd, ionScan, replace_abbreviations, split_ion, abbrev_to_formula,
          get_mass_of_ion, get_mass_of_ion_from, lookupH, isSign, isAlnumAscii, signVal,
          parent_mass_value, natOfDigits]

/-- C6 counterexample: the claim states the parsed parent multiplier is
always in `{1, 2, 3, …}` and the returned multiplier strictly positive.  The
parent-mass pattern `[0-9]?M` also accepts `0M`: on `"[0M+H]+"` parsing
succeeds with parent multiplier `0` and the entry point returns multiplier
`0.0`, which is not strictly positive. -/
theorem C6_zero_multiplier_counterexample :
    get_ions_from_adduct "[0M+H]+".data = .ok (some 0, some ["+1H".data]) ∧
    get_multiplier_and_mass_from_adduct lookupH "[0M+H]+".data
        = .ok (some 0, some (massH - ELECTRTON_MASS)) := by
  constructor
  · simp [get_ions_from_adduct, parse_inner_adduct, findallBr, lastIdxOf, pmScan, pmTry,
          pmGroup, pmCheckEnd, ionScan, replace_abbreviations, split_ion, abbrev_to_formula,
          isSign, isAlnumAscii, parent_mass_value, natOfDigits]
  · simp [get_multiplier_and_mass_from_adduct, assemble, get_charge_of_adduct, chargeScan,
          get_ions_from_adduct, parse_inner_adduct, findallBr, lastIdxOf, pmScan, pmTry,
          pmGroup, pmCheckEnd, ionScan, replace_abbreviations, split_ion, abbrev_to_formula,
          get_mass_of_ion, get_mass_of_ion_from, lookupH, isSign, isAlnumAscii, signVal,
          parent_mass_value, natOfDigits, massH, ELECTRTON_MASS]
    norm_num

/-- C8 counterexample: the claim states that a string containing `[` with
zero or more than one bracket-delimited region — including multiple bracket
groups — always fails with `(None, None)`.  But the greedy pattern
`\[(.*)\]` captures exactly one region spanning from the first `[` to the
last `]`, so `"[M+H][M+H]2+"` (two bracket groups) resolves successfully. -/
theorem C8_multiple_brackets_succeed_counterexample :
    ("[M+H][M+H]2+".data.filter (fun c => c = '[')).length = 2 ∧
    findallBr "[M+H][M+H]2+".data = ["M+H][M+H".data] ∧
    get_multiplier_and_mass_from_adduct lookupH "[M+H][M+H]2+".data
        = .ok (some (1 / 2), some (massH - ELECTRTON_MASS)) := by
  refine ⟨by decide, ?_, ?_⟩
  · simp [findallBr, lastIdxOf]
  · simp [get_multiplier_and_mass_from_adduct, assemble, get_charge_of_adduct, chargeScan,
          get_ions_from_adduct, parse_inner_adduct, findallBr, lastIdxOf, pmScan, pmTry,
          pmGroup, pmCheckEnd, ionScan, replace_abbreviations, split_ion, abbrev_to_formula,
          get_mass_of_ion, get_mass_of_ion_from, lookupH, isSign, isAlnumAscii, signVal,
          parent_mass_value, natOfDigits, massH, ELECTRTON_MASS]
    norm_num

/-- C10: strings with extra characters outside the recognized structure
still resolve, and to the same result as the cleaned-up string: the charge
suffix is found anywhere after a `]`, and characters outside the single
greedily-matched bracket region are ignored.  `"[M+H]+X"` (trailing junk)
and `"X[M+H]+"` (junk before the bracket) both resolve exactly like
`"[M+H]+"`, which succeeds. -/
theorem C10_extra_characters_ignored :
    get_multiplier_and_mass_from_adduct lookupH "[M+H]+X".data
        = get_multiplier_and_mass_from_adduct lookupH "[M+H]+".data ∧
    get_multiplier_and_mass_from_adduct lookupH "X[M+H]+".data
        = get_multiplier_and_mass_from_adduct lookupH "[M+H]+".data ∧
    get_multiplier_and_mass_from_adduct lookupH "[M+H]+".data
        = .ok (some 1, some (massH - ELECTRTON_MASS)) := by
  refine ⟨?_, ?_, ?_⟩
  all_goals
    simp [get_multiplier_and_mass_from_adduct, assemble, get_charge_of_adduct, chargeScan,
          get_ions_from_adduct, parse_inner_adduct, findallBr, lastIdxOf, pmScan, pmTry,
          pmGroup, pmCheckEnd, ionScan, replace_abbreviations, split_ion, abbrev_to_formula,
          get_mass_of_ion, get_mass_of_ion_from, lookupH, isSign, isAlnumAscii, signVal,
          parent_mass_value, natOfDigits, massH, ELECTRTON_MASS]
  norm_num

/-- C2: for every successfully resolved adduct with parsed parent multiplier
`p`, signed ion-mass sum `S` and nonzero charge `c`, the returned pair is
`(p / |c|, (S + electronMass * (-c)) / |c|)`. -/
theorem C2_resolved_pair_formula (lookup : List Char → Option ℚ)
    (a : List Char) (c : ℤ) (p : ℕ) (ions : List (List Char)) (S : ℚ)
    (hc : get_charge_of_adduct a = some c) (hc0 : c ≠ 0)
    (hi : get_ions_from_adduct a = .ok (some p, some ions))
    (hm : get_mass_of_ion lookup ions = .ok (some S)) :
    get_multiplier_and_mass_from_adduct lookup a
      = .ok (some ((p : ℚ) / |(c : ℚ)|),
             some ((S + ELECTRTON_MASS * (-(c : ℚ))) / |(c : ℚ)|)) := by
  unfold get_multiplier_and_mass_from_adduct assemble
  rw [hc, hi]
  dsimp only
  rw [hm]
  dsimp only
  rw [if_neg hc0]
  have habs : ((c.natAbs : ℚ)) = |(c : ℚ)| := by
    rw [Int.cast_natAbs]
    exact Int.cast_abs
  rw [habs, one_div_mul_eq_div]

/-- C2 witness: `"[M]+"` resolves with multiplier `1` and correction mass
`-electronMass`, the empty ion list contributing a signed sum of `0`. -/
theorem C2_resolved_pair_formula_witness :
    get_multiplier_and_mass_from_adduct lookupNone "[M]+".data
      = .ok (some 1, some (-ELECTRTON_MASS)) := by
  have h := C2_resolved_pair_formula lookupNone "[M]+".data 1 1 [] 0
    (by simp [get_charge_of_adduct, chargeScan, isSign, signVal])
    (by decide)
    (by simp [get_ions_from_adduct, parse_inner_adduct, findallBr, lastIdxOf, pmScan, pmTry,
              pmGroup, pmCheckEnd, ionScan, replace_abbreviations, split_ion,
              abbrev_to_formula, isSign, isAlnumAscii, parent_mass_value])
    rfl
  norm_num at h
  exact h

theorem get_charge_none_of_len {a : List Char} (h : (chargeScan a).length ≠ 1) :
    get_charge_of_adduct a = none := by
  unfold get_charge_of_adduct
  cases hcs : chargeScan a with
  | nil => rfl
  | cons m rest =>
    cases rest with
    | nil =>
      exfalso
      apply h
      rw [hcs]
      rfl
    | cons m2 r2 => rfl

/-- C4: charge extraction succeeds iff the pattern `\]([0-9]?[+-])` matches
exactly once; on success the charge is the signed magnitude, the magnitude
defaulting to `1` when no digit is present; zero or multiple matches make
the whole call return `(None, None)`. -/
theorem C4_charge_extraction (lookup : List Char → Option ℚ) (a : List Char) :
    ((get_charge_of_adduct a).isSome ↔ (chargeScan a).length = 1) ∧
    ((chargeScan a).length ≠ 1 →
      get_multiplier_and_mass_from_adduct lookup a = .ok (none, none)) ∧
    (∀ s : Char, chargeScan a = [[s]] → get_charge_of_adduct a = some (signVal s)) ∧
    (∀ d s : Char, chargeScan a = [[d, s]] →
      get_charge_of_adduct a = some (signVal s * ((d.toNat - 48 : ℕ) : ℤ))) := by
  refine ⟨?_, ?_, ?_, ?_⟩
  · unfold get_charge_of_adduct
    cases hcs : chargeScan a with
    | nil => simp
    | cons m rest =>
      cases rest with
      | cons m2 r2 => simp
      | nil =>
        have hmem : m ∈ chargeScan a := by
          rw [hcs]
          simp
        rcases chargeScan_shape a m hmem with ⟨s, hs, rfl⟩ | ⟨d, s, hd, hs, rfl⟩
        · simp
        · simp
  · intro hne
    unfold get_multiplier_and_mass_from_adduct
    rw [get_charge_none_of_len hne]
    rfl
  · intro s hcs
    unfold get_charge_of_adduct
    rw [hcs]
    dsimp only
    rw [Int.mul_one]
  · intro d s hcs
    unfold get_charge_of_adduct
    rw [hcs]

/-- C4 witness: `"[M]2+"` has exactly one charge match `2+` giving charge
`+2`, and `"[M]"` has zero matches so the whole call returns
`(None, None)`. -/
theorem C4_charge_extraction_witness :
    get_charge_of_adduct "[M]2+".data = some 2 ∧
    get_multiplier_and_mass_from_adduct lookupNone "[M]".data = .ok (none, none) := by
  constructor
  · have h := (C4_charge_extraction lookupNone "[M]2+".data).2.2.2 '2' '+'
      (by simp [chargeScan, isSign])
    simpa [signVal] using h
  · exact (C4_charge_extraction lookupNone "[M]".data).2.1
      (by simp [chargeScan, isSign])

/-- C7: if the ion tokens of an adduct parse successfully and any single
token's identifier (after abbreviation normalization) is not recognized by
the formula-mass collaborator, the whole resolution fails and the entry
point returns `(None, None)` — never a partial sum. -/
theorem C7_unrecognized_formula_all_or_nothing
    (lookup : List Char → Option ℚ) (a : List Char) (p : ℕ)
    (ions : List (List Char)) (tok : List Char) (sg : Char) (n f : List Char)
    (hi : get_ions_from_adduct a = .ok (some p, some ions))
    (htok : tok ∈ ions)
    (hsplit : split_ion tok = .ok (sg, n, f))
    (hlk : lookup f = none) :
    get_multiplier_and_mass_from_adduct lookup a = .ok (none, none) := by
  unfold get_multiplier_and_mass_from_adduct assemble
  cases hc : get_charge_of_adduct a with
  | none => rfl
  | some c =>
    rw [hi]
    dsimp only
    rw [show get_mass_of_ion lookup ions = .ok none from
      get_mass_of_ion_from_none (get_ions_tokens hi) htok hsplit hlk 0]

/-- C7 witness: `"[M+Qx]+"` parses to the single normalized token `+1Qx`;
`Qx` is not recognized by the collaborator, so the call returns
`(None, None)`. -/
theorem C7_unrecognized_formula_witness :
    get_multiplier_and_mass_from_adduct lookupH "[M+Qx]+".data = .ok (none, none) :=
  C7_unrecognized_formula_all_or_nothing lookupH "[M+Qx]+".data 1
    ["+1Qx".data] "+1Qx".data '+' ['1'] "Qx".data
    (by simp [get_ions_from_adduct, parse_inner_adduct, findallBr, lastIdxOf, pmScan, pmTry,
              pmGroup, pmCheckEnd, ionScan, replace_abbreviations, split_ion,
              abbrev_to_formula, isSign, isAlnumAscii, parent_mass_value])
    (by simp)
    (by simp [split_ion, isSign])
    (by simp [lookupH])

/-- C3 amended: when the parent-mass token matches at least once, parsing
proceeds non-exceptionally using the first match (for several matches the
extra ones are only warned about); when it matches zero times the code
raises `IndexError` instead of producing a result (see the counterexample
theorem). -/
theorem C3_parent_mass_count_amended :
    (∀ (a pm : List Char) (pms : List (List Char)), pmScan true a = pm :: pms →
      ∃ ions, parse_inner_adduct a = .ok (some (parent_mass_value pm), some ions)) ∧
    (∀ a : List Char, pmScan true a = [] → parse_inner_adduct a = .exn .indexError) := by
  constructor
  · intro a pm pms hpm
    obtain ⟨ions, h1, _⟩ := parse_inner_eq hpm
    exact ⟨ions, h1⟩
  · intro a h
    exact parse_inner_exn h

/-- C3 amended witness: `"M+H+M"` has two parent-mass matches and parsing
proceeds with the first (`M`, multiplier 1); `"H"` has zero matches and
raises. -/
theorem C3_parent_mass_count_amended_witness :
    (∃ ions, parse_inner_adduct "M+H+M".data
        = .ok (some (parent_mass_value ['M']), some ions)) ∧
    parse_inner_adduct "H".data = .exn .indexError := by
  constructor
  · exact C3_parent_mass_count_amended.1 "M+H+M".data ['M'] [['M']]
      (by simp [pmScan, pmTry, pmGroup, pmCheckEnd, isSign])
  · exact C3_parent_mass_count_amended.2 "H".data
      (by simp [pmScan, pmTry, pmGroup, pmCheckEnd, isSign])

/-- C6 amended: the parsed parent multiplier is a single digit value in
`{0, …, 9}` (defaulting to `1` for a bare `M`) — the pattern `[0-9]?M` also
accepts `0M`, so it is not always positive (see the counterexample theorem) —
and consequently the multiplier returned on success is nonnegative. -/
theorem C6_parent_multiplier_amended :
    (∀ (a : List Char) (p : ℕ) (ions : List (List Char)),
        get_ions_from_adduct a = .ok (some p, some ions) → p ≤ 9) ∧
    (∀ (lookup : List Char → Option ℚ) (a : List Char) (m corr : ℚ),
        get_multiplier_and_mass_from_adduct lookup a = .ok (some m, some corr) →
        0 ≤ m) := by
  constructor
  · intro a p ions h
    obtain ⟨w, hw⟩ := get_ions_inv h
    obtain ⟨pm, pms, hpm, hp, _⟩ := parse_inner_inv hw
    subst hp
    apply parent_mass_value_le
    apply pmScan_shape true w
    rw [hpm]
    simp
  · intro lookup a m corr h
    unfold get_multiplier_and_mass_from_adduct assemble at h
    split at h
    · simp at h
    · split at h
      · simp at h
      · split at h
        · split at h
          · simp at h
          · simp at h
          · split at h
            · simp at h
            · simp only [PyResult.ok.injEq, Prod.mk.injEq, Option.some.injEq] at h
              obtain ⟨hm, _⟩ := h
              rw [← hm]
              positivity
        · simp at h

/-- C6 amended witness: `"[2M+H]+"` parses with parent multiplier `2 ≤ 9`
and resolves with the nonnegative multiplier `2`. -/
theorem C6_parent_multiplier_amended_witness : (2 : ℕ) ≤ 9 ∧ (0 : ℚ) ≤ 2 := by
  constructor
  · exact C6_parent_multiplier_amended.1 "[2M+H]+".data 2 ["+1H".data]
      (by simp [get_ions_from_adduct, parse_inner_adduct, findallBr, lastIdxOf, pmScan,
                pmTry, pmGroup, pmCheckEnd, ionScan, replace_abbreviations, split_ion,
                abbrev_to_formula, isSign, isAlnumAscii, parent_mass_value])
  · exact C6_parent_multiplier_amended.2 lookupH "[2M+H]+".data 2
      (massH - ELECTRTON_MASS)
      (by simp [get_multiplier_and_mass_from_adduct, assemble, get_charge_of_adduct,
                chargeScan, get_ions_from_adduct, parse_inner_adduct, findallBr, lastIdxOf,
                pmScan, pmTry, pmGroup, pmCheckEnd, ionScan, replace_abbreviations,
                split_ion, abbrev_to_formula, get_mass_of_ion, get_mass_of_ion_from,
                lookupH, isSign, isAlnumAscii, signVal, parent_mass_value, natOfDigits,
                massH, ELECTRTON_MASS]
          norm_num)

/-- C8 amended: resolution fails with the ambiguous-bracket `(None, None)`
result exactly when the string contains `[` but the greedy pattern
`\[(.*)\]` does not capture exactly one region (on newline-free input this
means: no `]` after the first `[`); multiple or nested bracket pairs are
merged into the single region from the first `[` to the last `]` and are not
rejected (see the counterexample theorem). -/
theorem C8_bracket_regions_amended :
    ∀ (lookup : List Char → Option ℚ) (a : List Char),
      '[' ∈ a → (findallBr a).length ≠ 1 →
      get_ions_from_adduct a = .ok (none, none) ∧
      get_multiplier_and_mass_from_adduct lookup a = .ok (none, none) := by
  intro lookup a hmem hlen
  have hions : get_ions_from_adduct a = .ok (none, none) := by
    unfold get_ions_from_adduct
    rw [if_pos hmem]
    cases hfb : findallBr a with
    | nil => rfl
    | cons x rest =>
      cases rest with
      | nil =>
        exfalso
        apply hlen
        rw [hfb]
        rfl
      | cons y r2 => rfl
  refine ⟨hions, ?_⟩
  unfold get_multiplier_and_mass_from_adduct assemble
  cases hc : get_charge_of_adduct a with
  | none => rfl
  | some c =>
    rw [hions]

/-- C8 amended witness: `"[M+H"` contains `[` but has no bracket match, and
the call returns `(None, None)`. -/
theorem C8_bracket_regions_amended_witness :
    get_ions_from_adduct "[M+H".data = .ok (none, none) ∧
    get_multiplier_and_mass_from_adduct lookupH "[M+H".data = .ok (none, none) :=
  C8_bracket_regions_amended lookupH "[M+H".data (by decide)
    (by simp [findallBr, lastIdxOf])

/-- C9: abbreviation normalization splits every ion token (a sign followed
by a non-empty alphanumeric run) into sign, count and identifier without
failing, maps the identifier through the fixed table (leaving unknown
identifiers unchanged) and preserves sign and count; consequently a token
using the shorthand `FA` resolves to exactly the same result as the same
adduct with `CH2O2` substituted by hand, for every formula-mass
collaborator. -/
theorem C9_abbreviation_normalization :
    (∀ (t : List Char) (s : Char) (r : List Char),
        t = s :: r → isSign s = true → r ≠ [] →
        (∀ c ∈ r, isAlnumAscii c = true) →
        ∃ sg n f, split_ion t = .ok (sg, n, f) ∧ sg = s ∧
          replace_abbreviations [t]
            = .ok [sg :: (n ++ (abbrev_to_formula f).getD f)]) ∧
    (∀ lookup : List Char → Option ℚ,
        get_multiplier_and_mass_from_adduct lookup "[M+FA-H]-".data
          = get_multiplier_and_mass_from_adduct lookup "[M+CH2O2-H]-".data) := by
  constructor
  · rintro t s r rfl hs hr _halnum
    cases r with
    | nil => exact absurd rfl hr
    | cons c r2 =>
      by_cases hc : c.isDigit
      · refine ⟨s, _, _, split_ion_digit hs hc, rfl, ?_⟩
        rw [replace_abbreviations, split_ion_digit hs hc]
        dsimp only
        rw [replace_abbreviations]
      · refine ⟨s, _, _, split_ion_nodigit hs hc, rfl, ?_⟩
        rw [replace_abbreviations, split_ion_nodigit hs hc]
        dsimp only
        rw [replace_abbreviations]
  · intro lookup
    unfold get_multiplier_and_mass_from_adduct
    rw [show get_charge_of_adduct "[M+FA-H]-".data
          = get_charge_of_adduct "[M+CH2O2-H]-".data from by
        simp [get_charge_of_adduct, chargeScan, isSign, signVal],
      show get_ions_from_adduct "[M+FA-H]-".data
          = get_ions_from_adduct "[M+CH2O2-H]-".data from by
        simp [get_ions_from_adduct, parse_inner_adduct, findallBr, lastIdxOf, pmScan, pmTry,
              pmGroup, pmCheckEnd, ionScan, replace_abbreviations, split_ion,
              abbrev_to_formula, isSign, isAlnumAscii, parent_mass_value, natOfDigits]]

/-- C9 witness: the token `+FA` splits into sign `+`, count `1` and
identifier `FA`, which the table maps to `CH2O2`. -/
theorem C9_abbreviation_normalization_witness :
    ∃ sg n f, split_ion "+FA".data = .ok (sg, n, f) ∧ sg = '+' ∧
      replace_abbreviations ["+FA".data]
        = .ok [sg :: (n ++ (abbrev_to_formula f).getD f)] :=
  C9_abbreviation_normalization.1 "+FA".data '+' "FA".data rfl (by decide)
    (by decide) (by decide)
